import Mathlib

/-!
Shallow embedding of `xml-to-json-parser/xml_parser.py`: the Draw.io
geometry-to-hierarchy converter (Diagram Loader, Containment Resolver,
Tree Assembler), together with theorems settling the specification
claims about it.

Modelling conventions:
* Python floats parsed from attribute strings are modelled as rationals
  (`ℚ`); an attribute string is abstracted by its `float(...)` outcome
  (`GAttr.num q` when it parses to the number `q`, `GAttr.nonNum` when
  `float` raises `ValueError`).
* The XML document is modelled at the level the parser observes it:
  `find(".//mxGraphModel/root")` becomes an optional list of raw cells,
  `find("diagram")` an optional element with an optional `name`
  attribute; an ill-formed document (an `ET.ParseError`) is the
  `RawInput.malformed` constructor.
* The Python `dict` (insertion-ordered, update-in-place) becomes an
  association list with `dictInsert`.
* The uncaught `AttributeError` raised by
  `root.find("diagram").get("name", "Untitled")` when no `diagram`
  element exists is the `ParseResult.crash` constructor.
-/

namespace Drawio

/-- Outcome of applying Python `float` to a geometry attribute string:
either it parses to a rational, or it raises. -/
inductive GAttr where
  | num (q : ℚ)
  | nonNum
deriving DecidableEq

/-- An `mxGeometry` child element: the four attributes, each possibly
absent. -/
structure RawGeometry where
  x : Option GAttr
  y : Option GAttr
  width : Option GAttr
  height : Option GAttr
deriving DecidableEq

/-- An `mxCell` element as the parser observes it: its attributes (each
possibly absent) and its optional `mxGeometry` child. -/
structure RawCell where
  id : Option String
  vertex : Option String
  edge : Option String
  value : Option String
  source : Option String
  target : Option String
  geometry : Option RawGeometry
deriving DecidableEq

/-- A parsed bounding box, as built by `parse_geometry`. -/
structure Geometry where
  x : ℚ
  y : ℚ
  width : ℚ
  height : ℚ
deriving DecidableEq

/-- Model of `float(geo.get(a, 0))`: an absent attribute defaults to `0`; a present
attribute yields its parsed value, or raises (`none`) when non-numeric. -/
def parseAttr : Option GAttr → Option ℚ
  | none => some 0
  | some (GAttr.num q) => some q
  | some GAttr.nonNum => none

/-- Model of `parse_geometry(cell)`: `None` when the cell has no `mxGeometry` child
or any of the four attributes fails to parse as a float; otherwise the
bounding box, with absent attributes defaulted to `0`. -/
def parse_geometry (cell : RawCell) : Option Geometry :=
  match cell.geometry with
  | none => none
  | some g =>
    match parseAttr g.x, parseAttr g.y, parseAttr g.width, parseAttr g.height with
    | some gx, some gy, some gw, some gh => some ⟨gx, gy, gw, gh⟩
    | _, _, _, _ => none

/-- Model of `is_contained(child_geo, parent_geo)`: the child's box lies within the
parent's box, boundaries inclusive.  (The Python `not child_geo` guard can
never fire on the dictionaries built by pass 1, which are non-empty.) -/
def is_contained (child parent : Geometry) : Bool :=
  decide (child.x ≥ parent.x) && decide (child.y ≥ parent.y) &&
  decide (child.x + child.width ≤ parent.x + parent.width) &&
  decide (child.y + child.height ≤ parent.y + parent.height)

/-- Python whitespace characters recognised by `str.strip()` (ASCII part). -/
def pyIsSpace (c : Char) : Bool :=
  c = ' ' || c = '\t' || c = '\n' || c = '\r' || c = '\x0b' || c = '\x0c'

/-- Python `str.strip()` on the character list: drop whitespace from both ends. -/
def pyStripList (l : List Char) : List Char :=
  ((l.dropWhile pyIsSpace).reverse.dropWhile pyIsSpace).reverse

/-- Python `str.replace("<br>", " ")` on the character list: left-to-right,
non-overlapping. -/
def replaceBr : List Char → List Char
  | '<' :: 'b' :: 'r' :: '>' :: rest => ' ' :: replaceBr rest
  | c :: rest => c :: replaceBr rest
  | [] => []

/-- Model of `value.strip().replace("<br>", " ")` — the label normalisation applied
in pass 1 (strip first, then replace). -/
def normalizeLabel (s : String) : String :=
  String.mk (replaceBr (pyStripList s.toList))

/-- One entry of the `nodes` dictionary: the per-vertex record built by
pass 1 (the mutable `children` list is reconstructed from the resolver,
see `childIdsOf`). -/
structure Element where
  id : String
  label : String
  geometry : Geometry
deriving DecidableEq

/-- Model of `nodes[k] = v` on an insertion-ordered dictionary represented as an
association list: an existing key is updated in place, a new key is
appended. -/
def dictInsert (k : String) (v : Element) :
    List (String × Element) → List (String × Element)
  | [] => [(k, v)]
  | (k', v') :: rest =>
    if k' = k then (k, v) :: rest else (k', v') :: dictInsert k v rest

/-- Model of `d[k]` and `k in d`: find the value stored at a key. -/
def dictFind (k : String) : List (String × Element) → Option Element
  | [] => none
  | (k', v) :: rest => if k' = k then some v else dictFind k rest

/-- Truthiness of `cell.get("value")`: present and non-empty. -/
def valueTruthy : Option String → Bool
  | none => false
  | some v => decide (v ≠ "")

/-- Pass 1, one cell: add the cell to `nodes` when it is a vertex with a
truthy value, a truthy id and parseable geometry; otherwise leave `nodes`
unchanged. -/
def loadStep (acc : List (String × Element)) (c : RawCell) :
    List (String × Element) :=
  if c.vertex = some "1" ∧ valueTruthy c.value then
    match c.id, parse_geometry c with
    | some i, some g =>
      if i ≠ "" then dictInsert i ⟨i, normalizeLabel (c.value.getD ""), g⟩ acc
      else acc
    | _, _ => acc
  else acc

/-- Pass 1: fold `loadStep` over the cells in document order. -/
def loadNodes (cells : List RawCell) : List (String × Element) :=
  cells.foldl loadStep []

/-- The keys of the nodes dictionary, in insertion order
(`list(nodes.keys())`). -/
def nodeIds (nodes : List (String × Element)) : List String :=
  nodes.map Prod.fst

/-- The area used to rank candidate parents. -/
def geoArea (g : Geometry) : ℚ := g.width * g.height

/-- The `potential_parents` list for one child: every other node whose box
contains the child's box, paired with its area, in dictionary order. -/
def candidates (nodes : List (String × Element)) (childId : String)
    (childGeo : Geometry) : List (String × ℚ) :=
  nodes.filterMap fun pv =>
    if pv.1 = childId then none
    else if is_contained childGeo pv.2.geometry then
      some (pv.1, geoArea pv.2.geometry)
    else none

/-- Model of `min(l, key=lambda item: item[1])`: the first element with minimal
second component (`none` on the empty list, where Python would raise, but
pass 2 only calls it on a non-empty list). -/
def minBySnd : List (String × ℚ) → Option (String × ℚ)
  | [] => none
  | p :: rest => some (rest.foldl (fun best q => if q.2 < best.2 then q else best) p)

/-- Pass 2, one child: the id of the best-fit parent (`none` when no other
node contains the child, in which case the child is appended to nobody's
`children`). -/
def parentOf (nodes : List (String × Element)) (childId : String) :
    Option String :=
  match dictFind childId nodes with
  | none => none
  | some ce => (minBySnd (candidates nodes childId ce.geometry)).map Prod.fst

/-- The `children` id list of one node after pass 2: the children are
appended while iterating `all_node_ids` in order, so they appear in
dictionary order. -/
def childIdsOf (nodes : List (String × Element)) (p : String) : List String :=
  (nodeIds nodes).filter fun c => decide (parentOf nodes c = some p)

/-- The ids of `hierarchical_tree`: nodes that were never appended as a
child, in dictionary order. -/
def rootIds (nodes : List (String × Element)) : List String :=
  (nodeIds nodes).filter fun i => decide (parentOf nodes i = none)

/-- A node of the emitted `architecture` forest: geometry already
stripped, children fully expanded. -/
inductive OutNode where
  | mk (id : String) (label : String) (children : List OutNode)

/-- The id at the root of an output node. -/
def OutNode.nid : OutNode → String
  | .mk i _ _ => i

/-- The label of one node, as read off the dictionary (pass 1 guarantees
the id is present whenever this is called). -/
def labelOf (nodes : List (String × Element)) (i : String) : String :=
  match dictFind i nodes with
  | some e => e.label
  | none => ""

/-- Render the subtree rooted at one id.  In the Python program the
children lists hold references into the same dictionary, so serialising a
root expands the whole subtree; the fuel argument bounds the depth and,
taken as the number of nodes, is never exhausted on any node reachable
from a root (proved below). -/
def renderTree (nodes : List (String × Element)) : Nat → String → OutNode
  | 0, i => .mk i (labelOf nodes i) []
  | fuel + 1, i =>
    .mk i (labelOf nodes i) ((childIdsOf nodes i).map (renderTree nodes fuel))

/-- The `architecture` list: the rendered trees of the roots, in
dictionary order. -/
def renderForest (nodes : List (String × Element)) : List OutNode :=
  (rootIds nodes).map (renderTree nodes nodes.length)

/-- The ids occurring in the subtree rooted at one id, with the same fuel
discipline as `renderTree`. -/
def subtreeIds (nodes : List (String × Element)) : Nat → String → List String
  | 0, _ => []
  | fuel + 1, i => i :: ((childIdsOf nodes i).map (subtreeIds nodes fuel)).flatten

/-- All ids occurring in the emitted forest. -/
def forestIds (nodes : List (String × Element)) : List String :=
  ((rootIds nodes).map (subtreeIds nodes nodes.length)).flatten

/-- One emitted connection record. -/
structure Connection where
  source_id : String
  source_label : String
  target_id : String
  target_label : String
deriving DecidableEq

/-- Pass 3, one cell: an edge cell yields a connection exactly when both
its `source` and `target` attributes are keys of `nodes`. -/
def edgeOf (nodes : List (String × Element)) (c : RawCell) : Option Connection :=
  if c.edge = some "1" then
    match c.source, c.target with
    | some s, some t =>
      match dictFind s nodes, dictFind t nodes with
      | some se, some te => some ⟨s, se.label, t, te.label⟩
      | _, _ => none
    | _, _ => none
  else none

/-- Pass 3: the emitted `connections` list, in document order. -/
def buildEdges (nodes : List (String × Element)) (cells : List RawCell) :
    List Connection :=
  cells.filterMap (edgeOf nodes)

/-- The document as the parser observes it: the optional
`.//mxGraphModel/root` container with its `mxCell` children, and the
optional `diagram` element with its optional `name` attribute. -/
structure Document where
  graphRoot : Option (List RawCell)
  diagram : Option (Option String)

/-- The input handed to `parse_drawio_xml_v3`: either a document that
`ET.parse` rejects, or the parsed document. -/
inductive RawInput where
  | malformed
  | wellFormed (doc : Document)

/-- The emitted output document (`output_schema`). -/
structure OutputDoc where
  schema_version : String
  diagram_name : String
  architecture : List OutNode
  connections : List Connection

/-- Possible outcomes of `parse_drawio_xml_v3`: the handled `return None`
paths, the uncaught `AttributeError` raised by
`root.find("diagram").get(...)` when no `diagram` element exists, or the
serialised output document. -/
inductive ParseResult where
  | failure
  | crash
  | ok (d : OutputDoc)

/-- Model of `parse_drawio_xml_v3`: the whole pipeline.  (In the Python source the
`diagram` lookup happens after the three passes, but whether it raises
depends only on the document, so sequencing it first is
output-equivalent.) -/
def parse_drawio_xml_v3 : RawInput → ParseResult
  | .malformed => .failure
  | .wellFormed doc =>
    match doc.graphRoot with
    | none => .failure
    | some cells =>
      match doc.diagram with
      | none => .crash
      | some nameAttr =>
        let nodes := loadNodes cells
        .ok ⟨"3.0", nameAttr.getD "Untitled", renderForest nodes,
             buildEdges nodes cells⟩

/-- The pass-1 acceptance condition, read off `loadStep`: vertex flag set,
truthy label, truthy id, parseable geometry. -/
def accepts (c : RawCell) (i : String) : Prop :=
  c.vertex = some "1" ∧ valueTruthy c.value = true ∧ c.id = some i ∧
    i ≠ "" ∧ parse_geometry c ≠ none

instance (c : RawCell) (i : String) : Decidable (accepts c i) := by
  unfold accepts
  infer_instance

/-- A geometry attribute that `float` handles without raising: absent, or
numeric. -/
def okAttr : Option GAttr → Prop := fun a => a = none ∨ ∃ q, a = some (GAttr.num q)

/-- The numeric value an attribute contributes after defaulting: the
parsed number when numeric, `0` otherwise (matching `geo.get(a, 0)`). -/
def attrValD : Option GAttr → ℚ
  | some (GAttr.num q) => q
  | _ => 0

/-- Iterating the best-fit parent assignment `k` steps upward from a
node id (used to analyse reachability inside the emitted forest). -/
def iterParent (nodes : List (String × Element)) : Nat → String → Option String
  | 0, i => some i
  | k + 1, i =>
    match parentOf nodes i with
    | none => none
    | some p => iterParent nodes k p

/-- Entry `j`'s box strictly contains entry `i`'s box (containment plus
distinctness of the boxes). -/
def strictSupB (nodes : List (String × Element)) (i j : String) : Bool :=
  match dictFind i nodes, dictFind j nodes with
  | some ei, some ej =>
    is_contained ei.geometry ej.geometry && decide (ei.geometry ≠ ej.geometry)
  | _, _ => false

/-- The number of node keys whose box strictly contains `i`'s box — the
termination measure for descending the forest. -/
def supCount (nodes : List (String × Element)) (i : String) : Nat :=
  ((nodes.map Prod.fst).toFinset.filter
    (fun j => strictSupB nodes i j = true)).card

/-- No two distinct loaded Elements share a bounding box (the hypothesis
under which the forest invariant holds). -/
def distinctGeos (nodes : List (String × Element)) : Prop :=
  ∀ i j ei ej, dictFind i nodes = some ei → dictFind j nodes = some ej →
    i ≠ j → ei.geometry ≠ ej.geometry

/-! ### Concrete inputs used by witnesses and counterexamples -/

/-- A 10×10 box at the origin, as a raw geometry record. -/
def geomBig : RawGeometry :=
  ⟨some (.num 0), some (.num 0), some (.num 10), some (.num 10)⟩

/-- A disjoint 5×5 box at (20,20). -/
def geomFar : RawGeometry :=
  ⟨some (.num 20), some (.num 20), some (.num 5), some (.num 5)⟩

/-- A unit box at the origin. -/
def geomUnit : RawGeometry :=
  ⟨some (.num 0), some (.num 0), some (.num 1), some (.num 1)⟩

/-- Resolver-level node set: a 2×2 box `b` at (1,1) inside a 10×10 box
`a` at the origin. -/
def wNodes : List (String × Element) :=
  [("b", ⟨"b", "B", ⟨1, 1, 2, 2⟩⟩), ("a", ⟨"a", "A", ⟨0, 0, 10, 10⟩⟩)]

/-- Resolver-level node set: two coincident zero-size points. -/
def zNodes : List (String × Element) :=
  [("z", ⟨"z", "Z", ⟨0, 0, 0, 0⟩⟩), ("w", ⟨"w", "W", ⟨0, 0, 0, 0⟩⟩)]

/-- A vertex cell that satisfies every condition named by the loader claim
except that it carries no id. -/
def c3cell : RawCell := ⟨none, some "1", none, some "A", none, none, some geomUnit⟩

/-- A vertex cell whose value begins with a line-break token. -/
def c4cell : RawCell :=
  ⟨some "a", some "1", none, some "<br>x", none, none, some geomUnit⟩

/-- Vertex cell `a` on the big box. -/
def cellVA : RawCell := ⟨some "a", some "1", none, some "A", none, none, some geomBig⟩

/-- Vertex cell `b` on the far box. -/
def cellVB : RawCell := ⟨some "b", some "1", none, some "B", none, none, some geomFar⟩

/-- An edge cell from `a` to `b`. -/
def cellEAB : RawCell := ⟨some "e", none, some "1", none, some "a", some "b", none⟩

/-- Cell list for the connection-emission witness. -/
def cells5 : List RawCell := [cellVA, cellVB, cellEAB]

/-- Two vertex cells with identical boxes (they resolve as each other's
parent). -/
def cellDupA : RawCell := ⟨some "a", some "1", none, some "A", none, none, some geomBig⟩

/-- Second vertex cell with the same box as `cellDupA`. -/
def cellDupB : RawCell := ⟨some "b", some "1", none, some "B", none, none, some geomBig⟩

/-- Document with two coincident boxes; parses fine. -/
def c2doc : Document := ⟨some [cellDupA, cellDupB], some (some "D")⟩

/-- Well-formed document lacking the graph-model root container. -/
def docNoRoot : Document := ⟨none, some (some "N")⟩

/-- Well-formed document with a root container and a named diagram. -/
def docOk : Document := ⟨some [], some (some "N")⟩

/-- Well-formed document with a root container but no `diagram` element —
the input on which the Python code raises an uncaught `AttributeError`. -/
def c6doc : Document := ⟨some [], none⟩

/-- Well-formed document whose `diagram` element has no `name` attribute. -/
def c9doc : Document := ⟨some [], some none⟩

/-- A vertex cell whose geometry record omits x, y and height. -/
def c10cell : RawCell :=
  ⟨some "a", some "1", none, some "A", none, none,
   some ⟨none, none, some (.num 5), none⟩⟩

/-! ### Dictionary lemmas -/

theorem dictFind_dictInsert (i j : String) (v : Element)
    (l : List (String × Element)) :
    dictFind i (dictInsert j v l) = if j = i then some v else dictFind i l := by
  induction l with
  | nil =>
    by_cases h : j = i <;> simp [dictInsert, dictFind, h]
  | cons hd tl ih =>
    obtain ⟨k, w⟩ := hd
    by_cases hk : k = j
    · subst hk
      by_cases h : k = i <;> simp [dictInsert, dictFind, h]
    · by_cases h : k = i
      · subst h
        have hji : ¬ j = k := fun e => hk e.symm
        simp [dictInsert, dictFind, hk, hji]
      · simp [dictInsert, dictFind, hk, h, ih]

theorem dictInsert_keys (j : String) (v : Element) (l : List (String × Element)) :
    (dictInsert j v l).map Prod.fst =
      if j ∈ l.map Prod.fst then l.map Prod.fst else l.map Prod.fst ++ [j] := by
  induction l with
  | nil => simp [dictInsert]
  | cons hd tl ih =>
    obtain ⟨k, w⟩ := hd
    by_cases hk : k = j
    · subst hk
      simp [dictInsert]
    · have hjk : ¬ j = k := fun e => hk e.symm
      by_cases hmem : j ∈ tl.map Prod.fst <;>
        simp [dictInsert, hk, hjk, hmem, ih]

theorem dictInsert_keys_nodup (j : String) (v : Element)
    (l : List (String × Element)) (h : (l.map Prod.fst).Nodup) :
    ((dictInsert j v l).map Prod.fst).Nodup := by
  rw [dictInsert_keys]
  by_cases hmem : j ∈ l.map Prod.fst
  · simpa [hmem] using h
  · simp only [hmem, if_false]
    refine List.Nodup.append h (List.nodup_singleton j) ?_
    intro a ha hb
    rw [List.mem_singleton] at hb
    subst hb
    exact hmem ha

theorem loadStep_keys_nodup (acc : List (String × Element)) (c : RawCell)
    (h : (acc.map Prod.fst).Nodup) : ((loadStep acc c).map Prod.fst).Nodup := by
  unfold loadStep
  split
  · split
    · split
      · exact dictInsert_keys_nodup _ _ _ h
      · exact h
    · exact h
  · exact h

theorem loadNodes_keys_nodup (cells : List RawCell) :
    ((loadNodes cells).map Prod.fst).Nodup := by
  have general : ∀ (cs : List RawCell) (acc : List (String × Element)),
      (acc.map Prod.fst).Nodup → ((cs.foldl loadStep acc).map Prod.fst).Nodup := by
    intro cs
    induction cs with
    | nil => intro acc h; simpa using h
    | cons c tl ih =>
      intro acc h
      exact ih _ (loadStep_keys_nodup acc c h)
  exact general cells [] (by simp)

theorem mem_of_dictFind (k : String) (v : Element) (l : List (String × Element))
    (h : dictFind k l = some v) : (k, v) ∈ l := by
  induction l with
  | nil => simp [dictFind] at h
  | cons hd tl ih =>
    obtain ⟨k', w⟩ := hd
    by_cases hk : k' = k
    · subst hk
      simp [dictFind] at h
      simp [h]
    · simp [dictFind, hk] at h
      exact List.mem_cons_of_mem _ (ih h)

theorem dictFind_eq_some_of_mem (k : String) (v : Element)
    (l : List (String × Element)) (hnd : (l.map Prod.fst).Nodup)
    (h : (k, v) ∈ l) : dictFind k l = some v := by
  induction l with
  | nil => simp at h
  | cons hd tl ih =>
    obtain ⟨k', w⟩ := hd
    rcases List.mem_cons.mp h with heq | hmem
    · injection heq with h1 h2
      subst h1
      subst h2
      simp [dictFind]
    · have hk : k' ≠ k := by
        intro e
        subst e
        have : k' ∈ tl.map Prod.fst := List.mem_map.mpr ⟨(k', v), hmem, rfl⟩
        simp at hnd
        exact hnd.1 v hmem
      simp only [dictFind, if_neg hk]
      exact ih (by simp at hnd; exact hnd.2) hmem

theorem dictFind_isSome_iff (k : String) (l : List (String × Element)) :
    dictFind k l ≠ none ↔ k ∈ l.map Prod.fst := by
  induction l with
  | nil => simp [dictFind]
  | cons hd tl ih =>
    obtain ⟨k', w⟩ := hd
    by_cases hk : k' = k
    · subst hk
      simp [dictFind]
    · have : ¬ k = k' := fun e => hk e.symm
      simp [dictFind, hk, this, ih]

/-! ### Resolver lemmas -/

theorem minBySnd_aux_mem (rest : List (String × ℚ)) (p : String × ℚ) :
    rest.foldl (fun best q => if q.2 < best.2 then q else best) p ∈ p :: rest := by
  induction rest generalizing p with
  | nil => simp
  | cons hd tl ih =>
    simp only [List.foldl_cons]
    by_cases h : hd.2 < p.2
    · simp only [h, if_pos]
      rcases List.mem_cons.mp (ih hd) with e | e
      · simp [e]
      · simp [e]
    · simp only [h, if_neg, not_false_iff]
      rcases List.mem_cons.mp (ih p) with e | e
      · simp [e]
      · simp [e]

theorem minBySnd_aux_le (rest : List (String × ℚ)) (p : String × ℚ) :
    (rest.foldl (fun best q => if q.2 < best.2 then q else best) p).2 ≤ p.2 ∧
    ∀ y ∈ rest,
      (rest.foldl (fun best q => if q.2 < best.2 then q else best) p).2 ≤ y.2 := by
  induction rest generalizing p with
  | nil => simp
  | cons hd tl ih =>
    simp only [List.foldl_cons]
    by_cases h : hd.2 < p.2
    · simp only [h, if_pos]
      refine ⟨le_trans (ih hd).1 (le_of_lt h), ?_⟩
      intro y hy
      rcases List.mem_cons.mp hy with e | e
      · exact e ▸ (ih hd).1
      · exact (ih hd).2 y e
    · simp only [h, if_neg, not_false_iff]
      refine ⟨(ih p).1, ?_⟩
      intro y hy
      rcases List.mem_cons.mp hy with e | e
      · exact e ▸ le_trans (ih p).1 (le_of_not_lt h)
      · exact (ih p).2 y e

theorem minBySnd_mem (l : List (String × ℚ)) (x : String × ℚ)
    (h : minBySnd l = some x) : x ∈ l := by
  cases l with
  | nil => simp [minBySnd] at h
  | cons p rest =>
    simp only [minBySnd, Option.some_inj] at h
    exact h ▸ minBySnd_aux_mem rest p

theorem minBySnd_le (l : List (String × ℚ)) (x : String × ℚ)
    (h : minBySnd l = some x) : ∀ y ∈ l, x.2 ≤ y.2 := by
  cases l with
  | nil => simp [minBySnd] at h
  | cons p rest =>
    simp only [minBySnd, Option.some_inj] at h
    intro y hy
    rcases List.mem_cons.mp hy with e | e
    · exact h ▸ e ▸ (minBySnd_aux_le rest p).1
    · exact h ▸ (minBySnd_aux_le rest p).2 y e

theorem minBySnd_eq_none_iff (l : List (String × ℚ)) :
    minBySnd l = none ↔ l = [] := by
  cases l <;> simp [minBySnd]

theorem mem_candidates_iff (nodes : List (String × Element)) (b : String)
    (g : Geometry) (p : String) (ar : ℚ) :
    (p, ar) ∈ candidates nodes b g ↔
      ∃ pe, (p, pe) ∈ nodes ∧ p ≠ b ∧ is_contained g pe.geometry = true ∧
        ar = geoArea pe.geometry := by
  unfold candidates
  rw [List.mem_filterMap]
  constructor
  · rintro ⟨⟨q, qe⟩, hmem, hf⟩
    by_cases hq : q = b
    · simp [hq] at hf
    · by_cases hc : is_contained g qe.geometry
      · simp only [hq, if_neg, not_false_iff, hc, if_pos] at hf
        injection hf with h1
        injection h1 with h2 h3
        subst h2
        exact ⟨qe, hmem, hq, hc, h3.symm⟩
      · simp [hq, hc] at hf
  · rintro ⟨pe, hmem, hpb, hc, har⟩
    exact ⟨(p, pe), hmem, by simp [hpb, hc, har]⟩

theorem parentOf_eq_some (nodes : List (String × Element)) (b p : String)
    (h : parentOf nodes b = some p) :
    ∃ be pe, dictFind b nodes = some be ∧ (p, pe) ∈ nodes ∧ p ≠ b ∧
      is_contained be.geometry pe.geometry = true ∧
      ∀ q qe, (q, qe) ∈ nodes → q ≠ b →
        is_contained be.geometry qe.geometry = true →
        geoArea pe.geometry ≤ geoArea qe.geometry := by
  unfold parentOf at h
  cases hfind : dictFind b nodes with
  | none => rw [hfind] at h; simp at h
  | some be =>
    rw [hfind] at h
    simp only [Option.map_eq_some'] at h
    obtain ⟨x, hmin, hx⟩ := h
    subst hx
    have hxmem := minBySnd_mem _ _ hmin
    obtain ⟨pe, hpem, hpb, hc, har⟩ :=
      (mem_candidates_iff nodes b be.geometry x.1 x.2).mp (by simpa using hxmem)
    refine ⟨be, pe, rfl, hpem, hpb, hc, ?_⟩
    intro q qe hqmem hqb hqc
    have hqcand : (q, geoArea qe.geometry) ∈ candidates nodes b be.geometry :=
      (mem_candidates_iff nodes b be.geometry q _).mpr ⟨qe, hqmem, hqb, hqc, rfl⟩
    have := minBySnd_le _ _ hmin _ hqcand
    simpa [har] using this

theorem parentOf_eq_none (nodes : List (String × Element)) (b : String)
    (hnd : (nodes.map Prod.fst).Nodup) (be : Element)
    (hfind : dictFind b nodes = some be)
    (hnone : ∀ p pe, dictFind p nodes = some pe → p ≠ b →
      is_contained be.geometry pe.geometry = false) :
    parentOf nodes b = none := by
  unfold parentOf
  rw [hfind]
  have hcand : candidates nodes b be.geometry = [] := by
    unfold candidates
    rw [List.filterMap_eq_nil_iff]
    rintro ⟨q, qe⟩ hmem
    by_cases hq : q = b
    · simp [hq]
    · have := hnone q qe (dictFind_eq_some_of_mem q qe nodes hnd hmem) hq
      simp [hq, this]
  simp [hcand, minBySnd]

/-! ### Loader lemmas -/

theorem loadStep_find_ne_none (acc : List (String × Element)) (c : RawCell)
    (i : String) :
    dictFind i (loadStep acc c) ≠ none ↔ accepts c i ∨ dictFind i acc ≠ none := by
  unfold loadStep
  by_cases h1 : c.vertex = some "1" ∧ valueTruthy c.value
  · rw [if_pos h1]
    cases hid : c.id with
    | none =>
      cases hg : parse_geometry c with
      | none => simp [accepts, hid]
      | some g => simp [accepts, hid]
    | some j =>
      cases hg : parse_geometry c with
      | none => simp [accepts, hg]
      | some g =>
        by_cases hj : j = ""
        · subst hj
          have hnacc : ¬ accepts c i := by
            rintro ⟨-, -, hidi, hne, -⟩
            rw [hid] at hidi
            injection hidi with e
            exact hne e.symm
          simp [hnacc]
        · simp only [ne_eq, hj, not_false_iff, if_true]
          rw [dictFind_dictInsert]
          by_cases hji : j = i
          · subst hji
            simp [accepts, h1.1, h1.2, hid, hj, hg]
          · have : ¬ (accepts c i) := by
              rintro ⟨-, -, hidi, -, -⟩
              rw [hid] at hidi
              injection hidi with e
              exact hji e
            simp [hji, this]
  · rw [if_neg h1]
    have : ¬ (accepts c i) := by
      rintro ⟨ha, hb, -, -, -⟩
      exact h1 ⟨ha, hb⟩
    simp [this]

theorem loadStep_entry (acc : List (String × Element)) (c : RawCell)
    (i : String) (e : Element) (h : dictFind i (loadStep acc c) = some e) :
    dictFind i acc = some e ∨
      (accepts c i ∧ ∃ g, parse_geometry c = some g ∧
        e = ⟨i, normalizeLabel (c.value.getD ""), g⟩) := by
  unfold loadStep at h
  by_cases h1 : c.vertex = some "1" ∧ valueTruthy c.value
  · rw [if_pos h1] at h
    cases hid : c.id with
    | none =>
      rw [hid] at h
      cases hg : parse_geometry c <;> rw [hg] at h <;> exact Or.inl h
    | some j =>
      rw [hid] at h
      cases hg : parse_geometry c with
      | none => rw [hg] at h; exact Or.inl h
      | some g =>
        rw [hg] at h
        by_cases hj : j = ""
        · subst hj
          simp only [ne_eq, not_true_eq_false, if_false] at h
          exact Or.inl h
        · simp only [ne_eq, hj, not_false_iff, if_true] at h
          rw [dictFind_dictInsert] at h
          by_cases hji : j = i
          · subst hji
            refine Or.inr ⟨⟨h1.1, h1.2, hid, hj, by simp [hg]⟩, g, rfl, ?_⟩
            simp at h
            exact h.symm
          · rw [if_neg hji] at h
            exact Or.inl h
  · rw [if_neg h1] at h
    exact Or.inl h

theorem loadStep_preserves (acc : List (String × Element)) (c : RawCell)
    (i : String) (h : dictFind i acc ≠ none) :
    dictFind i (loadStep acc c) ≠ none :=
  (loadStep_find_ne_none acc c i).mpr (Or.inr h)

theorem loadNodes_find_ne_none (cells : List RawCell) (i : String) :
    dictFind i (loadNodes cells) ≠ none ↔ ∃ c ∈ cells, accepts c i := by
  have general : ∀ (cs : List RawCell) (acc : List (String × Element)),
      dictFind i (cs.foldl loadStep acc) ≠ none ↔
        (∃ c ∈ cs, accepts c i) ∨ dictFind i acc ≠ none := by
    intro cs
    induction cs with
    | nil => intro acc; simp
    | cons c tl ih =>
      intro acc
      rw [List.foldl_cons, ih (loadStep acc c), loadStep_find_ne_none]
      constructor
      · rintro (htl | hc | hacc)
        · obtain ⟨c', hc', ha⟩ := htl
          exact Or.inl ⟨c', List.mem_cons_of_mem _ hc', ha⟩
        · exact Or.inl ⟨c, List.mem_cons_self .., hc⟩
        · exact Or.inr hacc
      · rintro (⟨c', hc', ha⟩ | hacc)
        · rcases List.mem_cons.mp hc' with rfl | hmem
          · exact Or.inr (Or.inl ha)
          · exact Or.inl ⟨c', hmem, ha⟩
        · exact Or.inr (Or.inr hacc)
  rw [loadNodes, general cells []]
  simp [dictFind]

theorem loadNodes_entry (cells : List RawCell) (i : String) (e : Element)
    (h : dictFind i (loadNodes cells) = some e) :
    ∃ c ∈ cells, accepts c i ∧ ∃ g, parse_geometry c = some g ∧
      e = ⟨i, normalizeLabel (c.value.getD ""), g⟩ := by
  have general : ∀ (cs : List RawCell) (acc : List (String × Element)),
      dictFind i (cs.foldl loadStep acc) = some e →
        dictFind i acc = some e ∨
          ∃ c ∈ cs, accepts c i ∧ ∃ g, parse_geometry c = some g ∧
            e = ⟨i, normalizeLabel (c.value.getD ""), g⟩ := by
    intro cs
    induction cs with
    | nil => intro acc h'; exact Or.inl h'
    | cons c tl ih =>
      intro acc h'
      rw [List.foldl_cons] at h'
      rcases ih (loadStep acc c) h' with hstep | ⟨c', hc', ha, g, hg, he⟩
      · rcases loadStep_entry acc c i e hstep with hacc | ⟨ha, g, hg, he⟩
        · exact Or.inl hacc
        · exact Or.inr ⟨c, List.mem_cons_self .., ha, g, hg, he⟩
      · exact Or.inr ⟨c', List.mem_cons_of_mem _ hc', ha, g, hg, he⟩
  rcases general cells [] h with hnil | hres
  · simp [dictFind] at hnil
  · exact hres

/-! ### Edge lemmas -/

theorem edgeOf_eq_some (nodes : List (String × Element)) (c : RawCell)
    (conn : Connection) :
    edgeOf nodes c = some conn ↔
      c.edge = some "1" ∧ ∃ s t se te, c.source = some s ∧ c.target = some t ∧
        dictFind s nodes = some se ∧ dictFind t nodes = some te ∧
        conn = ⟨s, se.label, t, te.label⟩ := by
  constructor
  · intro h
    unfold edgeOf at h
    by_cases he : c.edge = some "1"
    · rw [if_pos he] at h
      split at h
      · rename_i s t hs ht
        split at h
        · rename_i se te hse hte
          exact ⟨he, s, t, se, te, hs, ht, hse, hte, (Option.some.inj h).symm⟩
        · exact Option.noConfusion h
      · exact Option.noConfusion h
    · rw [if_neg he] at h
      exact Option.noConfusion h
  · rintro ⟨he, s, t, se, te, hs, ht, hse, hte, rfl⟩
    simp [edgeOf, he, hs, ht, hse, hte]

theorem mem_buildEdges_iff (nodes : List (String × Element))
    (cells : List RawCell) (conn : Connection) :
    conn ∈ buildEdges nodes cells ↔ ∃ c ∈ cells, edgeOf nodes c = some conn := by
  unfold buildEdges
  rw [List.mem_filterMap]

/-! ### Assembler helper lemmas -/

theorem renderTree_nid (nodes : List (String × Element)) (fuel : Nat)
    (i : String) : (renderTree nodes fuel i).nid = i := by
  cases fuel <;> rfl

theorem renderForest_map_nid (nodes : List (String × Element)) :
    (renderForest nodes).map OutNode.nid = rootIds nodes := by
  unfold renderForest
  rw [List.map_map]
  have hmap : ∀ l : List String,
      l.map (OutNode.nid ∘ renderTree nodes nodes.length) = l := by
    intro l
    induction l with
    | nil => rfl
    | cons hd tl ih => simp [Function.comp, renderTree_nid, ih]
  exact hmap _

/-! ### Box-order lemmas and the descent measure -/

theorem is_contained_iff (a b : Geometry) :
    is_contained a b = true ↔
      b.x ≤ a.x ∧ b.y ≤ a.y ∧ a.x + a.width ≤ b.x + b.width ∧
        a.y + a.height ≤ b.y + b.height := by
  unfold is_contained
  simp only [Bool.and_eq_true, decide_eq_true_eq, ge_iff_le]
  tauto

theorem is_contained_trans (a b c : Geometry) (h1 : is_contained a b = true)
    (h2 : is_contained b c = true) : is_contained a c = true := by
  rw [is_contained_iff] at h1 h2 ⊢
  obtain ⟨p1, p2, p3, p4⟩ := h1
  obtain ⟨q1, q2, q3, q4⟩ := h2
  exact ⟨by linarith, by linarith, by linarith, by linarith⟩

theorem is_contained_antisymm (a b : Geometry) (h1 : is_contained a b = true)
    (h2 : is_contained b a = true) : a = b := by
  rw [is_contained_iff] at h1 h2
  obtain ⟨ax, ay, aw, ah⟩ := a
  obtain ⟨bx, byy, bw, bh⟩ := b
  simp only at h1 h2
  obtain ⟨p1, p2, p3, p4⟩ := h1
  obtain ⟨q1, q2, q3, q4⟩ := h2
  simp only [Geometry.mk.injEq]
  refine ⟨by linarith, by linarith, by linarith, by linarith⟩

theorem strictSupB_eq_true_iff (nodes : List (String × Element)) (i j : String) :
    strictSupB nodes i j = true ↔
      ∃ ei ej, dictFind i nodes = some ei ∧ dictFind j nodes = some ej ∧
        is_contained ei.geometry ej.geometry = true ∧
        ei.geometry ≠ ej.geometry := by
  unfold strictSupB
  cases h1 : dictFind i nodes with
  | none => simp
  | some ei =>
    cases h2 : dictFind j nodes with
    | none => simp
    | some ej => simp [Bool.and_eq_true, decide_eq_true_eq]

theorem strictSupB_irrefl (nodes : List (String × Element)) (i : String) :
    ¬ strictSupB nodes i i = true := by
  rw [strictSupB_eq_true_iff]
  rintro ⟨ei, ej, h1, h2, -, hne⟩
  rw [h1] at h2
  injection h2 with h2
  exact hne (by rw [h2])

theorem parentOf_strictSupB (nodes : List (String × Element))
    (hnd : (nodes.map Prod.fst).Nodup) (hdist : distinctGeos nodes)
    (c p : String) (h : parentOf nodes c = some p) :
    strictSupB nodes c p = true := by
  obtain ⟨ec, ep, hec, hpm, hpc, hcont, -⟩ := parentOf_eq_some nodes c p h
  have hep : dictFind p nodes = some ep := dictFind_eq_some_of_mem p ep nodes hnd hpm
  rw [strictSupB_eq_true_iff]
  exact ⟨ec, ep, hec, hep, hcont, hdist c p ec ep hec hep (fun e => hpc e.symm)⟩

theorem supCount_parent_lt (nodes : List (String × Element))
    (hnd : (nodes.map Prod.fst).Nodup) (hdist : distinctGeos nodes)
    (c p : String) (h : parentOf nodes c = some p) :
    supCount nodes p < supCount nodes c := by
  obtain ⟨ec, ep, hec, hpm, hpc, hcont, -⟩ := parentOf_eq_some nodes c p h
  have hep : dictFind p nodes = some ep := dictFind_eq_some_of_mem p ep nodes hnd hpm
  have hnegeo : ec.geometry ≠ ep.geometry :=
    hdist c p ec ep hec hep (fun e => hpc e.symm)
  unfold supCount
  apply Finset.card_lt_card
  rw [Finset.ssubset_iff_of_subset]
  · refine ⟨p, ?_, ?_⟩
    · rw [Finset.mem_filter]
      refine ⟨?_, ?_⟩
      · rw [List.mem_toFinset]
        exact (dictFind_isSome_iff p nodes).mp (by rw [hep]; simp)
      · rw [strictSupB_eq_true_iff]
        exact ⟨ec, ep, hec, hep, hcont, hnegeo⟩
    · rw [Finset.mem_filter]
      rintro ⟨-, hpp⟩
      exact strictSupB_irrefl nodes p hpp
  · intro j hj
    rw [Finset.mem_filter] at hj ⊢
    obtain ⟨hjK, hsup⟩ := hj
    refine ⟨hjK, ?_⟩
    rw [strictSupB_eq_true_iff] at hsup ⊢
    obtain ⟨ep', ej, hep', hej, hcontj, hnej⟩ := hsup
    rw [hep] at hep'
    injection hep' with hep'
    subst hep'
    refine ⟨ec, ej, hec, hej, is_contained_trans _ _ _ hcont hcontj, ?_⟩
    intro hecej
    apply hnej
    have hback : is_contained ep.geometry ec.geometry = true := by
      rw [← hecej] at hcontj
      exact hcontj
    have heq : ec.geometry = ep.geometry :=
      is_contained_antisymm _ _ hcont hback
    rw [← heq]
    exact hecej

theorem supCount_lt_length (nodes : List (String × Element)) (r : String)
    (h : dictFind r nodes ≠ none) : supCount nodes r < nodes.length := by
  have hrK : r ∈ (nodes.map Prod.fst).toFinset := by
    rw [List.mem_toFinset]
    exact (dictFind_isSome_iff r nodes).mp h
  have hsub : ((nodes.map Prod.fst).toFinset.filter
      (fun j => strictSupB nodes r j = true)) ⊆
        (nodes.map Prod.fst).toFinset.erase r := by
    intro j hj
    rw [Finset.mem_filter] at hj
    rw [Finset.mem_erase]
    refine ⟨?_, hj.1⟩
    intro e
    subst e
    exact strictSupB_irrefl nodes j hj.2
  have h1 : supCount nodes r ≤ ((nodes.map Prod.fst).toFinset.erase r).card :=
    Finset.card_le_card hsub
  have h2 : ((nodes.map Prod.fst).toFinset.erase r).card =
      (nodes.map Prod.fst).toFinset.card - 1 := Finset.card_erase_of_mem hrK
  have h3 : (nodes.map Prod.fst).toFinset.card ≤ nodes.length := by
    calc (nodes.map Prod.fst).toFinset.card ≤ (nodes.map Prod.fst).length :=
          (nodes.map Prod.fst).toFinset_card_le
      _ = nodes.length := List.length_map ..
  have h4 : 1 ≤ (nodes.map Prod.fst).toFinset.card :=
    Finset.card_pos.mpr ⟨r, hrK⟩
  omega

/-! ### Parent-chain lemmas -/

theorem iterParent_one (nodes : List (String × Element)) (i : String) :
    iterParent nodes 1 i = parentOf nodes i := by
  cases h : parentOf nodes i <;> simp [iterParent, h]

theorem iterParent_add (nodes : List (String × Element)) (a b : Nat)
    (i : String) :
    iterParent nodes (a + b) i = (iterParent nodes a i).bind (iterParent nodes b) := by
  induction a generalizing i with
  | zero => simp [iterParent, Nat.zero_add]
  | succ a ih =>
    have hr : a + 1 + b = (a + b) + 1 := by omega
    rw [hr]
    cases h : parentOf nodes i with
    | none => simp [iterParent, h]
    | some p => simp [iterParent, h, ih p]

theorem iterParent_succ_end (nodes : List (String × Element)) (k : Nat)
    (i : String) :
    iterParent nodes (k + 1) i =
      (iterParent nodes k i).bind (fun j => parentOf nodes j) := by
  rw [iterParent_add nodes k 1 i]
  cases iterParent nodes k i <;> simp [iterParent_one]

theorem iterParent_measure (nodes : List (String × Element))
    (hnd : (nodes.map Prod.fst).Nodup) (hdist : distinctGeos nodes) :
    ∀ (k : Nat) (i j : String), iterParent nodes k i = some j →
      supCount nodes j + k ≤ supCount nodes i := by
  intro k
  induction k with
  | zero =>
    intro i j h
    simp only [iterParent, Option.some_inj] at h
    subst h
    omega
  | succ k ih =>
    intro i j h
    unfold iterParent at h
    cases hp : parentOf nodes i with
    | none => rw [hp] at h; exact Option.noConfusion h
    | some p =>
      rw [hp] at h
      have h1 := ih p j h
      have h2 := supCount_parent_lt nodes hnd hdist i p hp
      omega

theorem iterParent_no_cycle (nodes : List (String × Element))
    (hnd : (nodes.map Prod.fst).Nodup) (hdist : distinctGeos nodes)
    (k : Nat) (r : String) (h : iterParent nodes (k + 1) r = some r) : False := by
  have := iterParent_measure nodes hnd hdist (k + 1) r r h
  omega

theorem parentOf_some_find (nodes : List (String × Element)) (c p : String)
    (h : parentOf nodes c = some p) : dictFind p nodes ≠ none := by
  obtain ⟨-, pe, -, hpm, -, -, -⟩ := parentOf_eq_some nodes c p h
  exact (dictFind_isSome_iff p nodes).mpr (List.mem_map.mpr ⟨(p, pe), hpm, rfl⟩)

theorem iterParent_find_ne_none (nodes : List (String × Element)) :
    ∀ (k : Nat) (i j : String), iterParent nodes k i = some j →
      dictFind i nodes ≠ none → dictFind j nodes ≠ none := by
  intro k
  induction k with
  | zero =>
    intro i j h hi
    simp only [iterParent, Option.some_inj] at h
    subst h
    exact hi
  | succ k ih =>
    intro i j h hi
    unfold iterParent at h
    cases hp : parentOf nodes i with
    | none => rw [hp] at h; exact Option.noConfusion h
    | some p =>
      rw [hp] at h
      exact ih p j h (parentOf_some_find nodes i p hp)

theorem reach_root (nodes : List (String × Element))
    (hnd : (nodes.map Prod.fst).Nodup) (hdist : distinctGeos nodes) :
    ∀ i, dictFind i nodes ≠ none →
      ∃ k r, iterParent nodes k i = some r ∧ parentOf nodes r = none ∧
        dictFind r nodes ≠ none := by
  have main : ∀ (n : Nat) (i : String), supCount nodes i < n →
      dictFind i nodes ≠ none →
      ∃ k r, iterParent nodes k i = some r ∧ parentOf nodes r = none ∧
        dictFind r nodes ≠ none := by
    intro n
    induction n with
    | zero => intro i h; omega
    | succ n ih =>
      intro i hlt hfind
      cases hp : parentOf nodes i with
      | none => exact ⟨0, i, rfl, hp, hfind⟩
      | some p =>
        have hplt := supCount_parent_lt nodes hnd hdist i p hp
        obtain ⟨k, r, hit, hr, hrf⟩ :=
          ih p (by omega) (parentOf_some_find nodes i p hp)
        refine ⟨k + 1, r, ?_, hr, hrf⟩
        simp [iterParent, hp, hit]
  exact fun i h => main (supCount nodes i + 1) i (by omega) h

/-! ### Counting lemmas for the emitted forest -/

theorem count_flatten (ls : List (List String)) (a : String) :
    ls.flatten.count a = (ls.map (List.count a)).sum := by
  induction ls with
  | nil => rfl
  | cons hd tl ih => simp [List.count_append, ih]

theorem sum_map_zero (l : List String) (f : String → Nat)
    (h : ∀ c ∈ l, f c = 0) : (l.map f).sum = 0 := by
  induction l with
  | nil => rfl
  | cons hd tl ih =>
    simp only [List.map_cons, List.sum_cons]
    rw [h hd (List.mem_cons_self ..), ih (fun c hc => h c (List.mem_cons_of_mem _ hc))]

theorem sum_map_one (l : List String) (hnd : l.Nodup) (c0 : String)
    (hc : c0 ∈ l) (f : String → Nat) (h1 : f c0 = 1)
    (h0 : ∀ c ∈ l, c ≠ c0 → f c = 0) : (l.map f).sum = 1 := by
  induction l with
  | nil => cases hc
  | cons hd tl ih =>
    rcases List.mem_cons.mp hc with rfl | hmem
    · simp only [List.map_cons, List.sum_cons, h1]
      have hz : ∀ c ∈ tl, f c = 0 := by
        intro c hct
        refine h0 c (List.mem_cons_of_mem _ hct) ?_
        intro e
        subst e
        exact (List.nodup_cons.mp hnd).1 hct
      rw [sum_map_zero tl f hz]
    · have hne : hd ≠ c0 := by
        intro e
        subst e
        exact (List.nodup_cons.mp hnd).1 hmem
      simp only [List.map_cons, List.sum_cons]
      rw [h0 hd (List.mem_cons_self ..) hne,
        ih (List.nodup_cons.mp hnd).2 hmem
          (fun c hct hne' => h0 c (List.mem_cons_of_mem _ hct) hne')]

theorem mem_childIdsOf (nodes : List (String × Element)) (p c : String) :
    c ∈ childIdsOf nodes p ↔ c ∈ nodeIds nodes ∧ parentOf nodes c = some p := by
  unfold childIdsOf
  rw [List.mem_filter]
  simp

theorem childIdsOf_nodup (nodes : List (String × Element)) (p : String)
    (hnd : (nodes.map Prod.fst).Nodup) : (childIdsOf nodes p).Nodup :=
  List.Nodup.filter _ hnd

theorem mem_rootIds (nodes : List (String × Element)) (r : String) :
    r ∈ rootIds nodes ↔ r ∈ nodeIds nodes ∧ parentOf nodes r = none := by
  unfold rootIds
  rw [List.mem_filter]
  simp

theorem rootIds_nodup (nodes : List (String × Element))
    (hnd : (nodes.map Prod.fst).Nodup) : (rootIds nodes).Nodup :=
  List.Nodup.filter _ hnd

theorem parentOf_isSome_find (nodes : List (String × Element)) (c p : String)
    (h : parentOf nodes c = some p) : dictFind c nodes ≠ none := by
  unfold parentOf at h
  cases hf : dictFind c nodes with
  | none => rw [hf] at h; exact Option.noConfusion h
  | some ce => simp [hf]

theorem chain_children_unique_le (nodes : List (String × Element))
    (hnd : (nodes.map Prod.fst).Nodup) (hdist : distinctGeos nodes)
    (i c0 c r : String) (k1 k2 : Nat) (hle : k1 ≤ k2)
    (h0 : iterParent nodes k1 i = some c0) (h1 : iterParent nodes k2 i = some c)
    (hp0 : parentOf nodes c0 = some r) (hp1 : parentOf nodes c = some r)
    (hne : c ≠ c0) : False := by
  have hdec : iterParent nodes (k2 - k1) c0 = some c := by
    have he : k1 + (k2 - k1) = k2 := by omega
    rw [← he, iterParent_add, h0] at h1
    simpa using h1
  cases hd : k2 - k1 with
  | zero =>
    rw [hd] at hdec
    simp only [iterParent, Option.some_inj] at hdec
    exact hne hdec.symm
  | succ d =>
    rw [hd] at hdec
    have hstep : iterParent nodes d r = some c := by
      unfold iterParent at hdec
      rw [hp0] at hdec
      exact hdec
    have hcyc : iterParent nodes (d + 1) r = some r := by
      rw [iterParent_succ_end, hstep]
      simpa using hp1
    exact iterParent_no_cycle nodes hnd hdist d r hcyc

theorem chain_children_unique (nodes : List (String × Element))
    (hnd : (nodes.map Prod.fst).Nodup) (hdist : distinctGeos nodes)
    (i c0 c r : String) (k1 k2 : Nat)
    (h0 : iterParent nodes k1 i = some c0) (h1 : iterParent nodes k2 i = some c)
    (hp0 : parentOf nodes c0 = some r) (hp1 : parentOf nodes c = some r)
    (hne : c ≠ c0) : False := by
  rcases Nat.le_total k1 k2 with hle | hle
  · exact chain_children_unique_le nodes hnd hdist i c0 c r k1 k2 hle h0 h1 hp0 hp1 hne
  · exact chain_children_unique_le nodes hnd hdist i c c0 r k2 k1 hle h1 h0 hp1 hp0
      (fun e => hne e.symm)

theorem subtree_count (nodes : List (String × Element))
    (hnd : (nodes.map Prod.fst).Nodup) (hdist : distinctGeos nodes) :
    ∀ (fuel : Nat) (r : String), dictFind r nodes ≠ none →
      nodes.length - supCount nodes r ≤ fuel →
      ∀ i : String,
        ((∃ k, iterParent nodes k i = some r) →
          (subtreeIds nodes fuel r).count i = 1) ∧
        ((¬ ∃ k, iterParent nodes k i = some r) →
          (subtreeIds nodes fuel r).count i = 0) := by
  intro fuel
  induction fuel with
  | zero =>
    intro r hr hfuel i
    exfalso
    have := supCount_lt_length nodes r hr
    omega
  | succ fuel ih =>
    intro r hr hfuel i
    have hsub : subtreeIds nodes (fuel + 1) r =
        r :: ((childIdsOf nodes r).map (subtreeIds nodes fuel)).flatten := rfl
    have hchild : ∀ c ∈ childIdsOf nodes r,
        dictFind c nodes ≠ none ∧ parentOf nodes c = some r ∧
        nodes.length - supCount nodes c ≤ fuel := by
      intro c hc
      obtain ⟨hck, hcp⟩ := (mem_childIdsOf nodes r c).mp hc
      have hcf : dictFind c nodes ≠ none := (dictFind_isSome_iff c nodes).mpr hck
      have hlt := supCount_parent_lt nodes hnd hdist c r hcp
      exact ⟨hcf, hcp, by omega⟩
    constructor
    · rintro ⟨k, hk⟩
      by_cases hir : i = r
      · subst hir
        rw [hsub, List.count_cons_self]
        have hz : (((childIdsOf nodes i).map (subtreeIds nodes fuel)).flatten).count i
            = 0 := by
          rw [count_flatten, List.map_map]
          apply sum_map_zero
          intro c hc
          obtain ⟨hcf, hcp, hcfuel⟩ := hchild c hc
          simp only [Function.comp]
          apply (ih c hcf hcfuel i).2
          rintro ⟨k', hk'⟩
          have hcyc : iterParent nodes (k' + 1) i = some i := by
            rw [iterParent_succ_end, hk']
            simpa using hcp
          exact iterParent_no_cycle nodes hnd hdist k' i hcyc
        rw [hz]
      · cases k with
        | zero =>
          exfalso
          simp only [iterParent, Option.some_inj] at hk
          exact hir hk
        | succ k' =>
          rw [iterParent_succ_end] at hk
          cases hc0 : iterParent nodes k' i with
          | none => rw [hc0] at hk; simp at hk
          | some c0 =>
            rw [hc0] at hk
            have hk2 : parentOf nodes c0 = some r := hk
            have hc0k : c0 ∈ nodeIds nodes :=
              (dictFind_isSome_iff c0 nodes).mp
                (parentOf_isSome_find nodes c0 r hk2)
            have hc0mem : c0 ∈ childIdsOf nodes r :=
              (mem_childIdsOf nodes r c0).mpr ⟨hc0k, hk2⟩
            obtain ⟨hc0f, -, hc0fuel⟩ := hchild c0 hc0mem
            rw [hsub, List.count_cons_of_ne hir, count_flatten, List.map_map]
            apply sum_map_one (childIdsOf nodes r)
              (childIdsOf_nodup nodes r hnd) c0 hc0mem
            · simp only [Function.comp]
              exact (ih c0 hc0f hc0fuel i).1 ⟨k', hc0⟩
            · intro c hc hnec
              simp only [Function.comp]
              obtain ⟨hcf, hcp, hcfuel⟩ := hchild c hc
              apply (ih c hcf hcfuel i).2
              rintro ⟨k'', hk''⟩
              exact chain_children_unique nodes hnd hdist i c0 c r k' k''
                hc0 hk'' hk2 hcp hnec
    · intro hnreach
      have hir : i ≠ r := by
        intro e
        apply hnreach
        subst e
        exact ⟨0, rfl⟩
      rw [hsub, List.count_cons_of_ne hir, count_flatten, List.map_map]
      apply sum_map_zero
      intro c hc
      obtain ⟨hcf, hcp, hcfuel⟩ := hchild c hc
      simp only [Function.comp]
      apply (ih c hcf hcfuel i).2
      rintro ⟨k'', hk''⟩
      apply hnreach
      refine ⟨k'' + 1, ?_⟩
      rw [iterParent_succ_end, hk'']
      simpa using hcp

/-! ### Claim theorems -/

/-- Claim C1: whenever the Containment Resolver assigns Element `b` the parent
`a`, then `a` is distinct from `b`, `a`'s box contains `b`'s box under the
inclusive-boundary predicate, and no Element other than `b` whose box also
contains `b`'s box has strictly smaller area than `a`. -/
theorem containment_correctness (nodes : List (String × Element))
    (hnd : (nodes.map Prod.fst).Nodup) (b a : String) (eb ea : Element)
    (hb : dictFind b nodes = some eb) (ha : dictFind a nodes = some ea)
    (hpar : parentOf nodes b = some a) :
    a ≠ b ∧ is_contained eb.geometry ea.geometry = true ∧
      ∀ c ec, dictFind c nodes = some ec → c ≠ b →
        is_contained eb.geometry ec.geometry = true →
        ¬ (geoArea ec.geometry < geoArea ea.geometry) := by
  obtain ⟨be, pe, hbe, hpem, hab, hcont, hmin⟩ := parentOf_eq_some nodes b a hpar
  rw [hb] at hbe
  injection hbe with hbe
  subst hbe
  have hpa : dictFind a nodes = some pe := dictFind_eq_some_of_mem a pe nodes hnd hpem
  rw [ha] at hpa
  injection hpa with hpa
  subst hpa
  refine ⟨hab, hcont, ?_⟩
  intro c ec hc hcb hcc
  have := hmin c ec (mem_of_dictFind c ec nodes hc) hcb hcc
  exact not_lt.mpr this

/-- Witness for C1 on a concrete node set: `b`'s 2×2 box at (1,1) lies in
`a`'s 10×10 box at the origin, and `a` is the assigned parent. -/
theorem containment_correctness_witness :
    parentOf wNodes "b" = some "a" ∧
      ("a" ≠ "b" ∧
        is_contained (⟨1, 1, 2, 2⟩ : Geometry) (⟨0, 0, 10, 10⟩ : Geometry) = true ∧
        ∀ c ec, dictFind c wNodes = some ec → c ≠ "b" →
          is_contained (⟨1, 1, 2, 2⟩ : Geometry) ec.geometry = true →
          ¬ (geoArea ec.geometry < geoArea (⟨0, 0, 10, 10⟩ : Geometry))) := by
  have hpar : parentOf wNodes "b" = some "a" := by with_unfolding_all rfl
  refine ⟨hpar, ?_⟩
  exact containment_correctness wNodes (by decide) "b" "a"
    ⟨"b", "B", ⟨1, 1, 2, 2⟩⟩ ⟨"a", "A", ⟨0, 0, 10, 10⟩⟩ rfl rfl hpar

/-- Claim C3 (amended): an id is bound to an Element by the Loader exactly when
some cell carries it together with the vertex flag, a truthy label, a
truthy id and parseable numeric geometry; and every emitted connection
references only ids bound to Elements. -/
theorem loader_element_condition :
    (∀ (cells : List RawCell) (i : String),
        dictFind i (loadNodes cells) ≠ none ↔ ∃ c ∈ cells, accepts c i) ∧
    (∀ (cells : List RawCell) (conn : Connection),
        conn ∈ buildEdges (loadNodes cells) cells →
          dictFind conn.source_id (loadNodes cells) ≠ none ∧
          dictFind conn.target_id (loadNodes cells) ≠ none) := by
  refine ⟨loadNodes_find_ne_none, ?_⟩
  intro cells conn hmem
  obtain ⟨c, hc, he⟩ := (mem_buildEdges_iff _ _ _).mp hmem
  obtain ⟨-, s, t, se, te, -, -, hse, hte, rfl⟩ := (edgeOf_eq_some _ _ _).mp he
  exact ⟨by simp [hse], by simp [hte]⟩

/-- Witness for C3: a fully qualifying cell does produce an Element. -/
theorem loader_element_condition_witness :
    dictFind "a" (loadNodes [cellVA]) ≠ none :=
  (loader_element_condition.1 [cellVA] "a").mpr
    ⟨cellVA, by decide, by decide⟩

/-- Counterexample to C3 as stated: a cell that is a vertex, has a
non-empty label and parseable numeric geometry, yet becomes no Element,
because it carries no id. -/
theorem loader_ignores_missing_id :
    c3cell.vertex = some "1" ∧ valueTruthy c3cell.value = true ∧
      parse_geometry c3cell ≠ none ∧ loadNodes [c3cell] = [] := by decide

/-- Claim C4 (amended): every emitted Element's label is the raw cell value with
surrounding whitespace stripped first and each `<br>` token then replaced
by a single space. -/
theorem label_normalization (cells : List RawCell) (i : String) (e : Element)
    (h : dictFind i (loadNodes cells) = some e) :
    ∃ c ∈ cells, ∃ v, c.value = some v ∧ e.label = normalizeLabel v := by
  obtain ⟨c, hc, ha, g, hg, rfl⟩ := loadNodes_entry cells i e h
  obtain ⟨-, hv, -, -, -⟩ := ha
  cases hval : c.value with
  | none => rw [hval] at hv; simp [valueTruthy] at hv
  | some v => exact ⟨c, hc, v, hval, by simp [hval]⟩

/-- Witness for C4 at a concrete cell. -/
theorem label_normalization_witness :
    dictFind "a" (loadNodes [c4cell]) =
      some ⟨"a", normalizeLabel "<br>x", ⟨0, 0, 1, 1⟩⟩ ∧
    ∃ c ∈ [c4cell], ∃ v, c.value = some v ∧
      (⟨"a", normalizeLabel "<br>x", (⟨0, 0, 1, 1⟩ : Geometry)⟩ : Element).label =
        normalizeLabel v := by
  have h : dictFind "a" (loadNodes [c4cell]) =
      some ⟨"a", normalizeLabel "<br>x", ⟨0, 0, 1, 1⟩⟩ := by decide
  exact ⟨h, label_normalization [c4cell] "a" _ h⟩

/-- Counterexample to C4's final clause: a label can begin with
whitespace, because the strip happens before the `<br>` replacement. -/
theorem label_leading_space :
    labelOf (loadNodes [c4cell]) "a" = " x" ∧
      " x".toList.head? = some ' ' ∧ pyIsSpace ' ' = true := by decide

/-- Claim C5: a connection is emitted for a cell exactly when the cell carries
the edge flag and both its source and target resolve to loaded Elements,
and then its labels are copied from those Elements. -/
theorem connection_emission (cells : List RawCell) (conn : Connection) :
    conn ∈ buildEdges (loadNodes cells) cells ↔
      ∃ c ∈ cells, c.edge = some "1" ∧
        ∃ s t se te, c.source = some s ∧ c.target = some t ∧
          dictFind s (loadNodes cells) = some se ∧
          dictFind t (loadNodes cells) = some te ∧
          conn = ⟨s, se.label, t, te.label⟩ := by
  rw [mem_buildEdges_iff]
  constructor
  · rintro ⟨c, hc, he⟩
    exact ⟨c, hc, (edgeOf_eq_some _ _ _).mp he⟩
  · rintro ⟨c, hc, hrest⟩
    exact ⟨c, hc, (edgeOf_eq_some _ _ _).mpr hrest⟩

/-- Witness for C5: a concrete resolvable edge is emitted with the copied
labels. -/
theorem connection_emission_witness :
    (⟨"a", "A", "b", "B"⟩ : Connection) ∈ buildEdges (loadNodes cells5) cells5 :=
  (connection_emission cells5 _).mpr
    ⟨cellEAB, by decide, rfl, "a", "b", ⟨"a", "A", ⟨0, 0, 10, 10⟩⟩,
     ⟨"b", "B", ⟨20, 20, 5, 5⟩⟩, rfl, rfl, by decide, by decide, rfl⟩

/-- Claim C6 (amended): an ill-formed document or one lacking the graph-model
root container yields the handled no-output failure; a well-formed
document with the root container and a `diagram` element yields one
complete output document; a well-formed document with the root container
but no `diagram` element crashes with an uncaught error (also yielding no
output). -/
theorem parse_failure_modes :
    (parse_drawio_xml_v3 .malformed = .failure) ∧
    (∀ doc, doc.graphRoot = none →
      parse_drawio_xml_v3 (.wellFormed doc) = .failure) ∧
    (∀ doc cells nm, doc.graphRoot = some cells → doc.diagram = some nm →
      ∃ d, parse_drawio_xml_v3 (.wellFormed doc) = .ok d) ∧
    (∀ doc cells, doc.graphRoot = some cells → doc.diagram = none →
      parse_drawio_xml_v3 (.wellFormed doc) = .crash) := by
  refine ⟨rfl, ?_, ?_, ?_⟩
  · intro doc h
    simp [parse_drawio_xml_v3, h]
  · intro doc cells nm hroot hdiag
    refine ⟨⟨"3.0", nm.getD "Untitled", renderForest (loadNodes cells),
      buildEdges (loadNodes cells) cells⟩, ?_⟩
    simp [parse_drawio_xml_v3, hroot, hdiag]
  · intro doc cells hroot hdiag
    simp [parse_drawio_xml_v3, hroot, hdiag]

/-- Witness for C6 at concrete documents of all four kinds. -/
theorem parse_failure_modes_witness :
    parse_drawio_xml_v3 .malformed = .failure ∧
    parse_drawio_xml_v3 (.wellFormed docNoRoot) = .failure ∧
    (∃ d, parse_drawio_xml_v3 (.wellFormed docOk) = .ok d) ∧
    parse_drawio_xml_v3 (.wellFormed c6doc) = .crash :=
  ⟨parse_failure_modes.1, parse_failure_modes.2.1 docNoRoot rfl,
   parse_failure_modes.2.2.1 docOk [] (some "N") rfl rfl,
   parse_failure_modes.2.2.2 c6doc [] rfl rfl⟩

/-- Counterexample to C6 as stated: a well-formed document that has the
graph-model root container (so the claim promises one complete output
document) but no `diagram` element; the code raises an uncaught error and
emits nothing. -/
theorem parse_crash_without_diagram :
    c6doc.graphRoot = some [] ∧
      parse_drawio_xml_v3 (.wellFormed c6doc) = .crash :=
  ⟨rfl, rfl⟩

/-- Claim C7: an Element whose box is contained in no other Element's box is a
root of the emitted forest. -/
theorem root_invariant (nodes : List (String × Element))
    (hnd : (nodes.map Prod.fst).Nodup) (b : String) (eb : Element)
    (hb : dictFind b nodes = some eb)
    (hfree : ∀ p pe, dictFind p nodes = some pe → p ≠ b →
      is_contained eb.geometry pe.geometry = false) :
    b ∈ rootIds nodes ∧ b ∈ (renderForest nodes).map OutNode.nid := by
  have hnone := parentOf_eq_none nodes b hnd eb hb hfree
  have hmem : b ∈ nodeIds nodes :=
    (dictFind_isSome_iff b nodes).mp (by rw [hb]; simp)
  have hroot : b ∈ rootIds nodes := by
    unfold rootIds
    exact List.mem_filter.mpr ⟨hmem, by simp [hnone]⟩
  exact ⟨hroot, by rw [renderForest_map_nid]; exact hroot⟩

/-- Witness for C7: the outer box of the concrete node set is a root. -/
theorem root_invariant_witness :
    "a" ∈ rootIds wNodes ∧ "a" ∈ (renderForest wNodes).map OutNode.nid := by
  refine root_invariant wNodes (by decide) "a" ⟨"a", "A", ⟨0, 0, 10, 10⟩⟩ rfl ?_
  intro p pe hp hne
  by_cases h1 : p = "b"
  · subst h1
    have : pe = ⟨"b", "B", ⟨1, 1, 2, 2⟩⟩ := by
      have := hp
      simp [wNodes, dictFind] at this
      exact this.symm
    subst this
    with_unfolding_all decide
  · by_cases h2 : p = "a"
    · exact absurd h2 hne
    · exfalso
      rw [wNodes] at hp
      unfold dictFind at hp
      rw [if_neg (fun e => h1 e.symm)] at hp
      unfold dictFind at hp
      rw [if_neg (fun e => h2 e.symm)] at hp
      exact Option.noConfusion hp

/-- Claim C8 (amended): a zero-size vertex cell still parses to a valid
geometry; a zero-size Element can be assigned as a parent, but (when all
widths and heights are nonnegative) only of Elements whose boxes are the
same zero-size point; and a zero-size Element is contained in exactly the
boxes whose closed extent includes its point. -/
theorem zero_size_containment :
    (∀ (c : RawCell) (qx qy : ℚ),
        c.geometry =
          some ⟨some (.num qx), some (.num qy), some (.num 0), some (.num 0)⟩ →
        parse_geometry c = some ⟨qx, qy, 0, 0⟩) ∧
    (∀ (nodes : List (String × Element)), (nodes.map Prod.fst).Nodup →
      ∀ (cId pId : String) (ez ec : Element),
        dictFind pId nodes = some ez → ez.geometry.width = 0 →
        ez.geometry.height = 0 → parentOf nodes cId = some pId →
        dictFind cId nodes = some ec → 0 ≤ ec.geometry.width →
        0 ≤ ec.geometry.height →
        ec.geometry = ⟨ez.geometry.x, ez.geometry.y, 0, 0⟩) ∧
    (∀ (zx zy : ℚ) (p : Geometry),
        is_contained ⟨zx, zy, 0, 0⟩ p = true ↔
          p.x ≤ zx ∧ zx ≤ p.x + p.width ∧ p.y ≤ zy ∧ zy ≤ p.y + p.height) := by
  refine ⟨?_, ?_, ?_⟩
  · intro c qx qy h
    simp [parse_geometry, h, parseAttr]
  · intro nodes hnd cId pId ez ec hez hw hh hpar hec hcw hch
    obtain ⟨be, pe, hbe, hpem, -, hcont, -⟩ := parentOf_eq_some nodes cId pId hpar
    rw [hec] at hbe
    injection hbe with hbe
    subst hbe
    have hpz : dictFind pId nodes = some pe :=
      dictFind_eq_some_of_mem pId pe nodes hnd hpem
    rw [hez] at hpz
    injection hpz with hpz
    subst hpz
    unfold is_contained at hcont
    simp only [Bool.and_eq_true, decide_eq_true_eq, ge_iff_le] at hcont
    obtain ⟨⟨⟨h1, h2⟩, h3⟩, h4⟩ := hcont
    rw [hw] at h3
    rw [hh] at h4
    have hgw : ec.geometry.width = 0 := by linarith
    have hgx : ec.geometry.x = ez.geometry.x := by linarith
    have hgh : ec.geometry.height = 0 := by linarith
    have hgy : ec.geometry.y = ez.geometry.y := by linarith
    obtain ⟨eid, elbl, g⟩ := ec
    obtain ⟨gx, gy, gw, gh⟩ := g
    simp only [Geometry.mk.injEq]
    exact ⟨hgx, hgy, hgw, hgh⟩
  · intro zx zy p
    unfold is_contained
    simp only [Bool.and_eq_true, decide_eq_true_eq, ge_iff_le]
    constructor
    · rintro ⟨⟨⟨h1, h2⟩, h3⟩, h4⟩
      refine ⟨h1, by linarith, h2, by linarith⟩
    · rintro ⟨h1, h2, h3, h4⟩
      refine ⟨⟨⟨h1, h3⟩, by linarith⟩, by linarith⟩

/-- Witness for C8: on the two coincident points, the zero-size parent's
child is forced to be the same zero-size point. -/
theorem zero_size_containment_witness :
    parentOf zNodes "z" = some "w" ∧
      (⟨"z", "Z", ⟨0, 0, 0, 0⟩⟩ : Element).geometry = ⟨0, 0, 0, 0⟩ := by
  have hpar : parentOf zNodes "z" = some "w" := by with_unfolding_all rfl
  refine ⟨hpar, ?_⟩
  exact zero_size_containment.2.1 zNodes (by decide) "z" "w"
    ⟨"w", "W", ⟨0, 0, 0, 0⟩⟩ ⟨"z", "Z", ⟨0, 0, 0, 0⟩⟩ rfl rfl rfl hpar rfl
    (le_refl 0) (le_refl 0)

/-- Counterexample to C8 as stated: the zero-size Element `w` is assigned
as the parent of the distinct Element `z`. -/
theorem zero_size_assigned_parent :
    parentOf zNodes "z" = some "w" ∧
      dictFind "w" zNodes = some ⟨"w", "W", ⟨0, 0, 0, 0⟩⟩ ∧ "w" ≠ "z" := by
  refine ⟨by with_unfolding_all rfl, rfl, by decide⟩

/-- Claim C9: when the diagram element carries no name attribute, the parse
still succeeds and the emitted document's name is the fixed placeholder. -/
theorem diagram_name_default (doc : Document) (cells : List RawCell)
    (hroot : doc.graphRoot = some cells) (hdiag : doc.diagram = some none) :
    ∃ d, parse_drawio_xml_v3 (.wellFormed doc) = .ok d ∧
      d.diagram_name = "Untitled" := by
  refine ⟨⟨"3.0", "Untitled", renderForest (loadNodes cells),
    buildEdges (loadNodes cells) cells⟩, ?_, rfl⟩
  simp [parse_drawio_xml_v3, hroot, hdiag]

/-- Witness for C9 at a concrete document. -/
theorem diagram_name_default_witness :
    ∃ d, parse_drawio_xml_v3 (.wellFormed c9doc) = .ok d ∧
      d.diagram_name = "Untitled" :=
  diagram_name_default c9doc [] rfl rfl

/-- Claim C10: a geometry record with absent attributes still parses, the
absent attributes defaulting to `0`. -/
theorem geometry_attribute_defaults (c : RawCell) (raw : RawGeometry)
    (hg : c.geometry = some raw) (hx : okAttr raw.x) (hy : okAttr raw.y)
    (hw : okAttr raw.width) (hh : okAttr raw.height) :
    parse_geometry c =
      some ⟨attrValD raw.x, attrValD raw.y, attrValD raw.width, attrValD raw.height⟩ ∧
    (raw.x = none → attrValD raw.x = 0) ∧ (raw.y = none → attrValD raw.y = 0) ∧
    (raw.width = none → attrValD raw.width = 0) ∧
    (raw.height = none → attrValD raw.height = 0) := by
  obtain ⟨rx, ry, rw', rh'⟩ := raw
  simp only [okAttr] at hx hy hw hh
  rcases hx with rfl | ⟨qx, rfl⟩ <;> rcases hy with rfl | ⟨qy, rfl⟩ <;>
    rcases hw with rfl | ⟨qw, rfl⟩ <;> rcases hh with rfl | ⟨qh, rfl⟩ <;>
    simp [parse_geometry, hg, parseAttr, attrValD]

/-- Witness for C10: a record with only a width still parses, with the
other coordinates defaulted to `0`. -/
theorem geometry_attribute_defaults_witness :
    parse_geometry c10cell = some ⟨0, 0, 5, 0⟩ ∧
      ((none : Option GAttr) = none → attrValD none = 0) := by
  have h := geometry_attribute_defaults c10cell ⟨none, none, some (.num 5), none⟩
    rfl (Or.inl rfl) (Or.inl rfl) (Or.inr ⟨5, rfl⟩) (Or.inl rfl)
  exact ⟨h.1, h.2.1⟩

theorem distinctGeos_pair (k1 k2 : String) (v1 v2 : Element)
    (hne : v1.geometry ≠ v2.geometry) :
    distinctGeos [(k1, v1), (k2, v2)] := by
  intro i j ei ej hi hj hij
  simp only [dictFind] at hi hj
  by_cases h1 : k1 = i
  · rw [if_pos h1] at hi
    injection hi with hi
    subst hi
    by_cases h2 : k1 = j
    · exfalso
      apply hij
      rw [← h1, ← h2]
    · rw [if_neg h2] at hj
      by_cases h3 : k2 = j
      · rw [if_pos h3] at hj
        injection hj with hj
        subst hj
        exact hne
      · rw [if_neg h3] at hj
        exact Option.noConfusion hj
  · rw [if_neg h1] at hi
    by_cases h3 : k2 = i
    · rw [if_pos h3] at hi
      injection hi with hi
      subst hi
      by_cases h2 : k1 = j
      · rw [if_pos h2] at hj
        injection hj with hj
        subst hj
        exact fun e => hne e.symm
      · rw [if_neg h2] at hj
        by_cases h4 : k2 = j
        · exfalso
          apply hij
          rw [← h3, ← h4]
        · rw [if_neg h4] at hj
          exact Option.noConfusion hj
    · rw [if_neg h3] at hi
      exact Option.noConfusion hi

/-- Claim C2 (amended): provided no two distinct loaded Elements share a
bounding box, every Element id produced by the Loader appears exactly
once across the emitted output forest. -/
theorem forest_ids_exactly_once (cells : List RawCell)
    (hdist : distinctGeos (loadNodes cells)) (i : String)
    (hi : i ∈ nodeIds (loadNodes cells)) :
    (forestIds (loadNodes cells)).count i = 1 := by
  have hnd := loadNodes_keys_nodup cells
  set nodes := loadNodes cells with hnodes
  have hif : dictFind i nodes ≠ none := (dictFind_isSome_iff i nodes).mpr hi
  obtain ⟨k, r0, hit, hr0, hr0f⟩ := reach_root nodes hnd hdist i hif
  have hr0mem : r0 ∈ rootIds nodes :=
    (mem_rootIds nodes r0).mpr ⟨(dictFind_isSome_iff r0 nodes).mp hr0f, hr0⟩
  unfold forestIds
  rw [count_flatten, List.map_map]
  apply sum_map_one (rootIds nodes) (rootIds_nodup nodes hnd) r0 hr0mem
  · simp only [Function.comp]
    exact (subtree_count nodes hnd hdist nodes.length r0 hr0f (by omega) i).1
      ⟨k, hit⟩
  · intro r hr hner
    simp only [Function.comp]
    obtain ⟨hrk, hrnone⟩ := (mem_rootIds nodes r).mp hr
    have hrf : dictFind r nodes ≠ none := (dictFind_isSome_iff r nodes).mpr hrk
    apply (subtree_count nodes hnd hdist nodes.length r hrf (by omega) i).2
    rintro ⟨k2, hk2⟩
    rcases Nat.le_total k k2 with hle | hle
    · have hd : iterParent nodes (k2 - k) r0 = some r := by
        have he : k + (k2 - k) = k2 := by omega
        rw [← he, iterParent_add, hit] at hk2
        simpa using hk2
      cases hdd : k2 - k with
      | zero =>
        rw [hdd] at hd
        simp only [iterParent, Option.some_inj] at hd
        exact hner hd.symm
      | succ d =>
        rw [hdd] at hd
        unfold iterParent at hd
        rw [hr0] at hd
        exact Option.noConfusion hd
    · have hd : iterParent nodes (k - k2) r = some r0 := by
        have he : k2 + (k - k2) = k := by omega
        rw [← he, iterParent_add, hk2] at hit
        simpa using hit
      cases hdd : k - k2 with
      | zero =>
        rw [hdd] at hd
        simp only [iterParent, Option.some_inj] at hd
        exact hner hd
      | succ d =>
        rw [hdd] at hd
        unfold iterParent at hd
        rw [hrnone] at hd
        exact Option.noConfusion hd

/-- Witness for C2 on two disjoint boxes: each id appears exactly once in
the forest. -/
theorem forest_ids_exactly_once_witness :
    "a" ∈ nodeIds (loadNodes [cellVA, cellVB]) ∧
      (forestIds (loadNodes [cellVA, cellVB])).count "a" = 1 := by
  have hmem : "a" ∈ nodeIds (loadNodes [cellVA, cellVB]) := by decide
  refine ⟨hmem, forest_ids_exactly_once [cellVA, cellVB] ?_ "a" hmem⟩
  have hload : loadNodes [cellVA, cellVB] =
      [("a", ⟨"a", "A", ⟨0, 0, 10, 10⟩⟩), ("b", ⟨"b", "B", ⟨20, 20, 5, 5⟩⟩)] := by
    decide
  rw [hload]
  exact distinctGeos_pair "a" "b" _ _ (by with_unfolding_all decide)

/-- Counterexample to C2 as stated: with two coincident boxes each is
resolved as the other's parent, so neither is a root and both ids vanish
from the emitted forest. -/
theorem forest_drops_coincident_boxes :
    parse_drawio_xml_v3 (.wellFormed c2doc) = .ok ⟨"3.0", "D", [], []⟩ ∧
      nodeIds (loadNodes [cellDupA, cellDupB]) = ["a", "b"] ∧
      (forestIds (loadNodes [cellDupA, cellDupB])).count "a" = 0 := by
  refine ⟨by with_unfolding_all rfl, by decide, by with_unfolding_all rfl⟩

end Drawio
